import Mathlib

/-!
Shallow embedding of the finite-element basis construction core of
`fe_utils/finite_elements.py`, over exact rational arithmetic.

The Python code computes with numpy float64 arrays; every quantity the
claims are about (node coordinates, Vandermonde entries, basis
coefficients, tabulated values) is a rational function of the rational
inputs, so we model the ideal exact semantics over `ℚ`.  The single
place where IEEE special values matter (division by a zero `degree` in
`lagrange_points`, whose invalid-operation warning the module turns off
with `np.seterr(invalid=..., divide=...)`) is modelled explicitly by
the carrier `QF` below.
-/

/-- Result of the numpy float division `i / degree` for an integer
numerator and denominator: either an exact rational, or one of the IEEE
special values `nan` (0/0), `inf` (pos/0) and `-inf` (neg/0) which
`np.seterr(invalid='ignore', divide='ignore')` lets through silently. -/
inductive QF where
  | num (q : ℚ)
  | nan
  | inf
  | ninf
deriving DecidableEq

/-- IEEE true division of integers, as performed entrywise by
`np.array(i[::-1]) / degree` in `lagrange_points`. -/
def qdiv (i degree : ℤ) : QF :=
  if degree = 0 then
    if i = 0 then QF.nan else if 0 < i then QF.inf else QF.ninf
  else QF.num (Rat.divInt i degree)

/-- Underlying rational of a finite `QF` value (0 for the special values). -/
def QF.valD : QF → ℚ
  | QF.num q => q
  | _ => 0

/-- The coordinate is an actual (finite) number lying in `[0, 1]`. -/
def QF.inUnit : QF → Prop
  | QF.num q => 0 ≤ q ∧ q ≤ 1
  | _ => False

instance : DecidablePred QF.inUnit := fun c => by
  cases c <;> simp [QF.inUnit] <;> infer_instance

/-- Python `range(n)` (as a list of integers; empty for `n ≤ 0`). -/
def pyRange (n : ℤ) : List ℤ := (List.range n.toNat).map (fun k : ℕ => (k : ℤ))

/-- Python `itertools.product(A, repeat=n)`: all length-`n` tuples over `A`,
first coordinate varying slowest. -/
def productRepeat (A : List ℤ) : ℕ → List (List ℤ)
  | 0 => [[]]
  | n + 1 => A.flatMap (fun a => (productRepeat A n).map (fun t => a :: t))

/-- Function `lagrange_points(cell, degree)` from `fe_utils/finite_elements.py`:
enumerate all `cell.dim`-tuples over `range(degree+1)`, keep those with
sum at most `degree`, and emit the reversed tuple divided by `degree`. -/
def lagrange_points (dim : ℕ) (degree : ℤ) : List (List QF) :=
  ((productRepeat (pyRange (degree + 1)) dim).filter
      (fun t => decide (t.sum ≤ degree))).map
    (fun t => t.reverse.map (fun i => qdiv i degree))

/-- Index pairs `(i, j)` of the monomial basis, in the exact order the
loops `for i in range(degree + 1)` / `for j in range((cell.dim - 1) * i + 1)`
of `vandermonde_matrix` emit the columns. -/
def basisPairs (dim degree : ℕ) : List (ℕ × ℕ) :=
  (List.range (degree + 1)).flatMap
    (fun i => (List.range ((dim - 1) * i + 1)).map (fun j => (i, j)))

/-- Number of basis functions (columns of the Vandermonde matrix). -/
def numBasis (dim degree : ℕ) : ℕ := (basisPairs dim degree).length

/-- The closure `column(i, idx, j)` of `vandermonde_matrix`, at a single
point `p`: `points[:, 0] ** max((i - j) - grad * (1 - idx), 0) *
points[:, -1] ** max(j - grad * idx, 0)` (with `grad` as the 0/1 integer
Python coerces the boolean to). -/
def column (grad : Bool) (i idx j : ℕ) (p : List ℚ) : ℚ :=
  (p.headD 0) ^ (((i : ℤ) - (j : ℤ) - (if grad then 1 else 0) * (1 - (idx : ℤ))).toNat) *
    (p.getLastD 0) ^ (((j : ℤ) - (if grad then 1 else 0) * (idx : ℤ)).toNat)

/-- Entry of the value-mode (`grad=False`) generalised Vandermonde matrix
at point `p` and basis column `b`. -/
def vandEntry (dim degree : ℕ) (p : List ℚ) (b : ℕ) : ℚ :=
  let ij := (basisPairs dim degree).getD b (0, 0)
  column false ij.1 0 ij.2 p

/-- Entry of the gradient-mode (`grad=True`) Vandermonde array for basis
pair `ij` and coordinate direction `k`: the Python code multiplies
`column(i, k, j)` by the integer coefficient `(i - j) * (1 - k) + j * k`. -/
def gradEntry (ij : ℕ × ℕ) (k : ℕ) (p : List ℚ) : ℚ :=
  ((((ij.1 : ℤ) - (ij.2 : ℤ)) * (1 - (k : ℤ)) + (ij.2 : ℤ) * (k : ℤ) : ℤ) : ℚ) *
    column true ij.1 k ij.2 p

/-- Array `vandermonde_matrix(cell, degree, points, grad=True)`: after the
`np.swapaxes(matrix, 0, 1)` the array is indexed by
point, then basis function, then coordinate direction. -/
def vandermonde_matrix_grad (dim degree : ℕ) (pts : List (List ℚ)) :
    List (List (List ℚ)) :=
  pts.map (fun p =>
    (basisPairs dim degree).map (fun ij =>
      (List.range dim).map (fun k => gradEntry ij k p)))

/-- The square Vandermonde matrix `V = vandermonde_matrix(cell, degree, nodes)`
built at the element's nodes by `FiniteElement.__init__`.  (When
`nodes.length = numBasis dim degree` — the unisolvence precondition on
shapes — row `p` is the monomial row at node `p`.) -/
def elemVand (dim degree : ℕ) (nodes : List (List ℚ)) :
    Matrix (Fin (numBasis dim degree)) (Fin (numBasis dim degree)) ℚ :=
  Matrix.of fun p b => vandEntry dim degree (nodes.getD p.val []) b.val

/-- The matrix `np.linalg.inv` computes when it succeeds: in exact
arithmetic, the inverse `det⁻¹ · adjugate`. -/
def npInv (n : ℕ) (A : Matrix (Fin n) (Fin n) ℚ) : Matrix (Fin n) (Fin n) ℚ :=
  A.det⁻¹ • A.adjugate

/-- The only failure `FiniteElement.__init__` can surface:
`numpy.linalg.LinAlgError("Singular matrix")` raised by `np.linalg.inv`.
No other error class (in particular no `SingularBasis`) exists anywhere
in the repository. -/
inductive NpLinAlgError where
  | singularMatrix
deriving DecidableEq

/-- A square rational matrix laid out as a list of rows (the
list-of-rows view of a 2-d numpy array). -/
def matToList (n : ℕ) (A : Matrix (Fin n) (Fin n) ℚ) : List (List ℚ) :=
  (List.finRange n).map (fun i => (List.finRange n).map (fun j => A i j))

/-- The matrix with the given list of rows (entries outside the list
are 0); inverse view of `matToList`, used to name concrete matrices. -/
def listToMat (n : ℕ) (rows : List (List ℚ)) : Matrix (Fin n) (Fin n) ℚ :=
  Matrix.of fun i j => (rows.getD i.val []).getD j.val 0

/-- Assignment `self.basis_coefs = np.linalg.inv(V)` in `FiniteElement.__init__`:
in exact arithmetic `np.linalg.inv` (LU factorisation) fails precisely
when the matrix is singular, i.e. when its determinant is zero; there is
no conditioning check of any kind. -/
def basis_coefs (dim degree : ℕ) (nodes : List (List ℚ)) :
    Except NpLinAlgError (List (List ℚ)) :=
  if (elemVand dim degree nodes).det = 0 then Except.error NpLinAlgError.singularMatrix
  else Except.ok
    (matToList (numBasis dim degree) (npInv (numBasis dim degree) (elemVand dim degree nodes)))

/-- Method `FiniteElement.tabulate(points)` (value mode):
`vandermonde_matrix(cell, degree, points) @ basis_coefs`, as a list of
rows, one per evaluation point; entry `(p, n)` is
`∑_b V[p, b] * basis_coefs[b, n]`. -/
def tabulate (dim degree : ℕ) (nodes pts : List (List ℚ)) :
    Except NpLinAlgError (List (List ℚ)) :=
  (basis_coefs dim degree nodes).map (fun B =>
    pts.map (fun p =>
      (List.range (numBasis dim degree)).map (fun n =>
        ((List.range (numBasis dim degree)).map (fun b =>
          vandEntry dim degree p b * (B.getD b []).getD n 0)).sum)))

/-- Method `FiniteElement.tabulate(points, grad=True)`:
`np.einsum("ijk,jl->ilk", T, self.basis_coefs)` where `T` is the
gradient-mode Vandermonde array — entry `(p, l, k)` is
`∑_j T[p, j, k] * basis_coefs[j, l]`. -/
def tabulateGrad (dim degree : ℕ) (nodes pts : List (List ℚ)) :
    Except NpLinAlgError (List (List (List ℚ))) :=
  (basis_coefs dim degree nodes).map (fun B =>
    pts.map (fun p =>
      (List.range (numBasis dim degree)).map (fun l =>
        (List.range dim).map (fun k =>
          ((List.range (numBasis dim degree)).map (fun j =>
            gradEntry ((basisPairs dim degree).getD j (0, 0)) k p
              * (B.getD j []).getD l 0)).sum))))

/-- Method `FiniteElement.interpolate(fn)`: `np.array([fn(node) for node in self.nodes])`. -/
def interpolate (nodes : List (List ℚ)) (fn : List ℚ → ℚ) : List ℚ :=
  nodes.map fn

/-- Matrix–vector product `A @ v` of numpy, for a list-of-rows matrix. -/
def matVecL (A : List (List ℚ)) (v : List ℚ) : List ℚ :=
  A.map (fun row => ((row.zip v).map (fun ab => ab.1 * ab.2)).sum)

/-- The body of `VectorFiniteElement.tabulate` in value mode, as a
function of the wrapped scalar element's tabulation `phi` (the method's
first step computes `phi = self.finite_element.tabulate(points)`).
`vphi[:, i] = np.einsum("i, j-> ij", phi[:, i // 2], e)` with
`e = [(i + 1) % 2, i % 2]`; note the loop bound `raw_shape[1] * dim`
uses the cell dimension but the `2`s in `e` and `i // 2` are hard-coded. -/
def vlift_value (dim : ℕ) (phi : List (List ℚ)) : List (List (List ℚ)) :=
  phi.map (fun row =>
    (List.range (row.length * dim)).map (fun i =>
      [row.getD (i / 2) 0 * (((i + 1) % 2 : ℕ) : ℚ),
       row.getD (i / 2) 0 * ((i % 2 : ℕ) : ℚ)]))

/-- The body of `VectorFiniteElement.tabulate` in gradient mode, as a
function of the scalar gradient tabulation `phig`:
`vphi[:, i] = np.einsum("ik, j-> ikj", phig[:, i // 2], e)`, so entry
`(p, i, k, j)` is `phig[p, i // 2, k] * e[j]` — the scalar gradient
direction `k` is the third axis and the component `j` the (hard-coded,
always size 2) fourth axis. -/
def vlift_grad (dim : ℕ) (phig : List (List (List ℚ))) :
    List (List (List (List ℚ))) :=
  phig.map (fun row =>
    (List.range (row.length * dim)).map (fun i =>
      (row.getD (i / 2) []).map (fun g =>
        [g * (((i + 1) % 2 : ℕ) : ℚ), g * ((i % 2 : ℕ) : ℚ)])))

/-- Method `VectorFiniteElement.tabulate(points)` (value mode): lift the scalar
element's tabulation at the same points. -/
def VectorFiniteElement.tabulate_value (dim degree : ℕ) (nodes pts : List (List ℚ)) :
    Except NpLinAlgError (List (List (List ℚ))) :=
  (tabulate dim degree nodes pts).map (vlift_value dim)

/-- Method `VectorFiniteElement.tabulate(points, grad=True)`: lift the scalar
element's gradient tabulation at the same points. -/
def VectorFiniteElement.tabulate_grad (dim degree : ℕ) (nodes pts : List (List ℚ)) :
    Except NpLinAlgError (List (List (List (List ℚ)))) :=
  (tabulateGrad dim degree nodes pts).map (vlift_grad dim)

/-- Modelled from the spec: the expected node count of the complete
polynomial space, `expected_count(1, d) = d + 1` and
`expected_count(2, d) = (d + 1)(d + 2) / 2`. -/
def expected_count (dim degree : ℕ) : ℕ :=
  if dim = 1 then degree + 1 else (degree + 1) * (degree + 2) / 2

/-- Modelled from the spec: the power rule `d/dx xⁿ = n·xⁿ⁻¹`, with the
derivative of `x⁰` equal to `0` (the coefficient `n = 0` annihilates the
term, never an exponent `-1`). -/
def dpow (n : ℕ) (x : ℚ) : ℚ := (n : ℚ) * x ^ (n - 1)

/-- Modelled from the spec: the analytic gradient of the monomial basis
function with exponent pair `ij` at point `p`.  For `dim = 1` the
monomial is `x^i` and the gradient is the single entry `∂/∂x x^i`; for
`dim = 2` it is `x^(i-j) y^j` with entries `∂/∂x` then `∂/∂y`, each by
the power rule. -/
def analyticGradRow (dim : ℕ) (ij : ℕ × ℕ) (p : List ℚ) : List ℚ :=
  let x := p.headD 0
  let y := p.getLastD 0
  if dim = 1 then [dpow ij.1 x]
  else [dpow (ij.1 - ij.2) x * y ^ ij.2, x ^ (ij.1 - ij.2) * dpow ij.2 y]

/-- Modelled from the spec: the full analytic gradient-mode Vandermonde
array, point by point and basis monomial by basis monomial. -/
def analyticVandGrad (dim degree : ℕ) (pts : List (List ℚ)) :
    List (List (List ℚ)) :=
  pts.map (fun p => (basisPairs dim degree).map (fun ij => analyticGradRow dim ij p))

/-- The `ℓ∞` operator norm (maximum absolute row sum) of a rational
matrix — the norm used by the standard conditioning estimate. -/
def rowSumNorm (n : ℕ) (A : Matrix (Fin n) (Fin n) ℚ) : ℚ :=
  ((List.finRange n).map (fun i => ((List.finRange n).map (fun j => |A i j|)).sum)).foldr max 0

/-- Modelled from the spec: the `ℓ∞` condition number `‖A‖·‖A⁻¹‖` of an
invertible matrix (with the exact inverse `npInv`). -/
def condInf (n : ℕ) (A : Matrix (Fin n) (Fin n) ℚ) : ℚ :=
  rowSumNorm n A * rowSumNorm n (npInv n A)

/-- Modelled from the spec: a matrix is numerically singular in float64
when it is exactly singular or its condition number exceeds
`1 / eps = 2^52`, the threshold at which float64 inversion loses all
significant digits. -/
def numericallySingularF64 (n : ℕ) (A : Matrix (Fin n) (Fin n) ℚ) : Prop :=
  A.det = 0 ∨ (2 : ℚ) ^ 52 < condInf n A

/-- A polynomial in the element's complete polynomial space, given by
its coefficient list `c` over the monomial basis (in `basisPairs`
order): `p ↦ ∑_b c_b · monomial_b(p)`.  Every polynomial of total
degree at most `degree` on the cell is of this form. -/
def fpoly (dim degree : ℕ) (c : List ℚ) (p : List ℚ) : ℚ :=
  ((List.range (numBasis dim degree)).map
    (fun b => c.getD b 0 * vandEntry dim degree p b)).sum

/-- For a non-zero denominator, `qdiv` is exactly the true division
`i / degree` of the two integers, as in the Python source. -/
lemma qdiv_eq_div (i d : ℤ) (h : d ≠ 0) :
    qdiv i d = QF.num ((i : ℚ) / (d : ℚ)) := by
  simp [qdiv, h, Rat.divInt_eq_div]

/-- If `B` is a right inverse of the element's Vandermonde matrix, then
the construction succeeds and `basis_coefs` is exactly `B` (as a list
of rows). -/
lemma det_ne_zero_of_right_inv {n : ℕ} {A B : Matrix (Fin n) (Fin n) ℚ}
    (h : A * B = 1) : A.det ≠ 0 := by
  intro h0
  have := congrArg Matrix.det h
  rw [Matrix.det_mul, h0, zero_mul, Matrix.det_one] at this
  exact zero_ne_one this

lemma npInv_eq_of_right_inv {n : ℕ} {A B : Matrix (Fin n) (Fin n) ℚ}
    (h : A * B = 1) : npInv n A = B := by
  have hdet : A.det ≠ 0 := det_ne_zero_of_right_inv h
  have h1 : npInv n A * (A * B) = npInv n A := by
    rw [h, mul_one]
  calc npInv n A = npInv n A * (A * B) := h1.symm
    _ = (npInv n A * A) * B := by rw [mul_assoc]
    _ = (1 : Matrix (Fin n) (Fin n) ℚ) * B := by
        rw [npInv, Matrix.smul_mul, Matrix.adjugate_mul, smul_smul,
          inv_mul_cancel₀ hdet, one_smul]
    _ = B := one_mul B

lemma basis_coefs_ok_of_right_inv (dim degree : ℕ) (nodes : List (List ℚ))
    (B : Matrix (Fin (numBasis dim degree)) (Fin (numBasis dim degree)) ℚ)
    (h : elemVand dim degree nodes * B = 1) :
    basis_coefs dim degree nodes = Except.ok (matToList (numBasis dim degree) B) := by
  rw [basis_coefs, if_neg (det_ne_zero_of_right_inv h), npInv_eq_of_right_inv h]

lemma mem_pyRange {n a : ℤ} : a ∈ pyRange n ↔ 0 ≤ a ∧ a < n := by
  rw [pyRange]
  constructor
  · intro h
    obtain ⟨k, hk, rfl⟩ := List.mem_map.mp h
    have := List.mem_range.mp hk
    omega
  · intro h
    refine List.mem_map.mpr ⟨a.toNat, List.mem_range.mpr ?_, ?_⟩ <;> omega

lemma length_pyRange (n : ℤ) : (pyRange n).length = n.toNat := by
  rw [pyRange, List.length_map, List.length_range]

lemma countP_flatMap {α β : Type} (l : List α) (g : α → List β) (p : β → Bool) :
    (l.flatMap g).countP p = (l.map (fun a => (g a).countP p)).sum := by
  induction l with
  | nil => simp
  | cons a t ih => simp [List.flatMap_cons, List.countP_append, ih]

lemma flatMap_single {α β : Type} (l : List α) (f : α → β) :
    (l.flatMap fun a => [f a]) = l.map f := by
  induction l with
  | nil => rfl
  | cons x t ih => simp [ih]

lemma productRepeat_one (A : List ℤ) : productRepeat A 1 = A.map (fun a => [a]) := by
  show A.flatMap (fun a => (productRepeat A 0).map (fun t => a :: t)) = _
  show A.flatMap (fun a => [[a]]) = _
  exact flatMap_single A _

lemma productRepeat_two (A : List ℤ) :
    productRepeat A 2 = A.flatMap (fun a => A.map (fun b => [a, b])) := by
  show A.flatMap (fun a => (productRepeat A 1).map (fun t => a :: t)) = _
  rw [productRepeat_one]
  have h : ∀ a : ℤ, ((A.map (fun b => [b])).map (fun t => a :: t) : List (List ℤ))
      = A.map (fun b => [a, b]) := by
    intro a
    rw [List.map_map]
    rfl
  exact congrArg A.flatMap (funext h)

lemma countP_sum_pairs (a c : ℤ) (B : List ℤ) :
    (B.map (fun b => [a, b])).countP (fun t => decide (t.sum ≤ c))
      = B.countP (fun b => decide (a + b ≤ c)) := by
  induction B with
  | nil => rfl
  | cons x t ih => simp [List.countP_cons, ih]

lemma countP_cast_range_le (m : ℕ) (c : ℤ) :
    ((List.range m).map (fun k : ℕ => (k : ℤ))).countP (fun b => decide (b ≤ c))
      = min m (c + 1).toNat := by
  induction m with
  | zero => simp
  | succ m ih =>
      rw [List.range_succ, List.map_append, List.countP_append, ih]
      by_cases h : (m : ℤ) ≤ c <;> simp [List.countP_cons, h] <;> omega

lemma sum_map_range {M : Type} [AddCommMonoid M] (n : ℕ) (f : ℕ → M) :
    ((List.range n).map f).sum = ∑ i ∈ Finset.range n, f i := by
  induction n with
  | zero => simp
  | succ m ih =>
      rw [List.range_succ, Finset.sum_range_succ, List.map_append, List.sum_append, ih]
      simp

lemma length_lagrange_one (d : ℕ) : (lagrange_points 1 (d : ℤ)).length = d + 1 := by
  rw [lagrange_points, List.length_map, productRepeat_one, List.filter_eq_self.mpr,
    List.length_map, length_pyRange]
  · omega
  · intro t ht
    rcases List.mem_map.mp ht with ⟨a, ha, rfl⟩
    rcases mem_pyRange.mp ha with ⟨h0, hlt⟩
    simp only [List.sum_cons, List.sum_nil, decide_eq_true_eq]
    omega

lemma length_lagrange_two (d : ℕ) :
    (lagrange_points 2 (d : ℤ)).length * 2 = (d + 1) * (d + 2) := by
  rw [lagrange_points, List.length_map, ← List.countP_eq_length_filter, productRepeat_two,
    countP_flatMap]
  have hinner : ∀ a ∈ pyRange ((d : ℤ) + 1),
      ((pyRange ((d : ℤ) + 1)).map (fun b => [a, b])).countP
          (fun t => decide (t.sum ≤ (d : ℤ)))
        = d + 1 - a.toNat := by
    intro a ha
    rcases mem_pyRange.mp ha with ⟨h0, hlt⟩
    rw [countP_sum_pairs]
    have hcongr : (pyRange ((d : ℤ) + 1)).countP (fun b => decide (a + b ≤ (d : ℤ)))
        = (pyRange ((d : ℤ) + 1)).countP (fun b => decide (b ≤ (d : ℤ) - a)) :=
      List.countP_congr (fun b _ => by simp only [decide_eq_true_eq]; omega)
    rw [hcongr, pyRange, countP_cast_range_le]
    omega
  rw [List.map_congr_left hinner, pyRange, List.map_map]
  have ht : (((d : ℤ)) + 1).toNat = d + 1 := by omega
  rw [ht]
  have hcomp : (List.range (d + 1)).map ((fun a : ℤ => d + 1 - a.toNat) ∘ (fun k : ℕ => (k : ℤ)))
      = (List.range (d + 1)).map (fun k => d + 1 - k) :=
    List.map_congr_left (fun k _ => by simp)
  rw [hcomp, sum_map_range]
  have hreflect : ∑ k ∈ Finset.range (d + 1), (d + 1 - k)
      = ∑ k ∈ Finset.range (d + 1), (k + 1) := by
    have h := Finset.sum_range_reflect (fun k => k + 1) (d + 1)
    rw [← h]
    apply Finset.sum_congr rfl
    intro k hk
    have := Finset.mem_range.mp hk
    omega
  rw [hreflect, Finset.sum_add_distrib, Finset.sum_const, Finset.card_range, smul_eq_mul,
    mul_one, add_mul, Finset.sum_range_id_mul_two, Nat.add_sub_cancel]
  ring

/-- Claim C3: for every cell (dim 1 or 2) and every degree `d ≥ 0`,
`lagrange_points` returns exactly `expected_count` nodes: `d + 1` on the
interval and `(d + 1)(d + 2)/2` on the triangle. -/
theorem lagrange_points_count (dim degree : ℕ) (hdim : dim = 1 ∨ dim = 2) :
    (lagrange_points dim (degree : ℤ)).length = expected_count dim degree := by
  rcases hdim with h | h <;> subst h
  · rw [length_lagrange_one]
    simp [expected_count]
  · have h2 := length_lagrange_two degree
    simp only [expected_count, if_neg (by omega : ¬ (2 : ℕ) = 1)]
    omega

/-- Witness for C3 at the concrete input dim 2, degree 3 (10 nodes). -/
theorem lagrange_points_count_witness :
    ((2 : ℕ) = 1 ∨ (2 : ℕ) = 2) ∧
      (lagrange_points 2 ((3 : ℕ) : ℤ)).length = expected_count 2 3 :=
  ⟨Or.inr rfl, lagrange_points_count 2 3 (Or.inr rfl)⟩

lemma productRepeat_zero_degree (dim : ℕ) :
    productRepeat (pyRange 1) dim = [List.replicate dim 0] := by
  induction dim with
  | zero => rfl
  | succ n ih =>
      show (pyRange 1).flatMap (fun a => (productRepeat (pyRange 1) n).map (fun t => a :: t)) = _
      rw [ih]
      rfl

/-- Counterexample to claim C6: at degree 0 on the interval the single
node's coordinate is the IEEE `nan` produced by the division `0 / 0`
(whose invalid-operation warning the module silences with
`np.seterr(invalid='ignore', ...)`) — not a safe finite value. -/
theorem lagrange_points_degree_zero_nan : lagrange_points 1 0 = [[QF.nan]] := by decide

/-- Claim C6 as amended: for degree 0 on a cell of any dimension the
node generator returns exactly one node, every coordinate of which is
the IEEE `nan` resulting from `0 / 0`; no safe-value convention
(substituting 1 for the degree, or placing the node at the origin) is
implemented. -/
theorem lagrange_points_degree_zero (dim : ℕ) :
    lagrange_points dim 0 = [List.replicate dim QF.nan] := by
  rw [lagrange_points]
  norm_num
  rw [productRepeat_zero_degree]
  have hfilter : List.filter (fun t : List ℤ => decide (t.sum ≤ 0)) [List.replicate dim 0]
      = [List.replicate dim 0] := by
    apply List.filter_eq_self.mpr
    intro t ht
    rw [List.mem_singleton.mp ht]
    simp [List.sum_replicate]
  rw [hfilter]
  simp only [List.map_cons, List.map_nil, List.reverse_replicate, List.map_replicate]
  rfl

/-- Counterexample to claim C7: for the negative degree `-3` on the
triangle, `lagrange_points` silently returns an empty node list; no
`InvalidDegree` (or any other) error is raised — no such error class
exists anywhere in the repository. -/
theorem lagrange_points_negative_degree_empty : lagrange_points 2 (-3) = [] := by decide

/-- Claim C7 as amended: for every cell and every negative degree the
node generator returns the empty node list (Python's `range(degree + 1)`
is empty), rather than failing with an `InvalidDegree` error. -/
theorem lagrange_points_negative_degree (dim : ℕ) (degree : ℤ)
    (hdim : 1 ≤ dim) (hdeg : degree < 0) :
    lagrange_points dim degree = [] := by
  have hpy : pyRange (degree + 1) = [] := by
    rw [pyRange]
    have : (degree + 1).toNat = 0 := by omega
    rw [this]
    rfl
  obtain ⟨n, rfl⟩ : ∃ n, dim = n + 1 := ⟨dim - 1, by omega⟩
  rw [lagrange_points]
  show ((((pyRange (degree + 1)).flatMap
      (fun a => (productRepeat (pyRange (degree + 1)) n).map (fun t => a :: t))).filter
        (fun t => decide (t.sum ≤ degree))).map _) = []
  rw [hpy]
  rfl

/-- Witness for the amended C7 at the concrete input dim 1, degree −1. -/
theorem lagrange_points_negative_degree_witness :
    (1 ≤ (1 : ℕ) ∧ (-1 : ℤ) < 0) ∧ lagrange_points 1 (-1) = [] :=
  ⟨⟨le_refl 1, by decide⟩, lagrange_points_negative_degree 1 (-1) (le_refl 1) (by decide)⟩

lemma mem_productRepeat {A : List ℤ} {n : ℕ} {t : List ℤ}
    (h : t ∈ productRepeat A n) : t.length = n ∧ ∀ x ∈ t, x ∈ A := by
  induction n generalizing t with
  | zero =>
      have : t = [] := List.mem_singleton.mp h
      subst this
      exact ⟨rfl, by intro x hx; cases hx⟩
  | succ m ih =>
      obtain ⟨a, ha, hm⟩ := List.mem_flatMap.mp h
      obtain ⟨s, hs, rfl⟩ := List.mem_map.mp hm
      obtain ⟨hlen, hmem⟩ := ih hs
      refine ⟨by simp [hlen], ?_⟩
      intro x hx
      rcases List.mem_cons.mp hx with rfl | hx
      · exact ha
      · exact hmem x hx

lemma sum_map_div_cast (l : List ℤ) (c : ℚ) :
    (l.map (fun i : ℤ => (i : ℚ) / c)).sum = ((l.sum : ℤ) : ℚ) / c := by
  induction l with
  | nil => simp
  | cons a t ih =>
      rw [List.map_cons, List.sum_cons, ih, List.sum_cons]
      push_cast
      rw [add_div]

/-- Claim C10: for dim 1 or 2 and degree at least 1, every node produced
by the node generator lies in the closed reference simplex: every
coordinate is a finite number in `[0, 1]` and the coordinates of each
node sum to at most 1. -/
theorem lagrange_points_in_simplex (dim degree : ℕ)
    (hdim : dim = 1 ∨ dim = 2) (hdeg : 1 ≤ degree) :
    ∀ node ∈ lagrange_points dim (degree : ℤ),
      (∀ c ∈ node, QF.inUnit c) ∧ (node.map QF.valD).sum ≤ 1 := by
  intro node hnode
  have hne : ((degree : ℕ) : ℤ) ≠ 0 := by omega
  have hpos : (0 : ℚ) < ((degree : ℤ) : ℚ) := by
    push_cast
    exact_mod_cast hdeg
  rw [lagrange_points] at hnode
  obtain ⟨t, ht, rfl⟩ := List.mem_map.mp hnode
  have htf := List.mem_filter.mp ht
  obtain ⟨hlen, hmem⟩ := mem_productRepeat htf.1
  have hsum : t.sum ≤ (degree : ℤ) := by
    have := htf.2
    simpa using this
  constructor
  · intro c hc
    obtain ⟨i, hi, rfl⟩ := List.mem_map.mp hc
    have hit : i ∈ t := List.mem_reverse.mp hi
    obtain ⟨h0, hlt⟩ := mem_pyRange.mp (hmem i hit)
    rw [qdiv_eq_div i _ hne]
    refine ⟨div_nonneg (by exact_mod_cast h0) (le_of_lt hpos), ?_⟩
    rw [div_le_one hpos]
    exact_mod_cast (by omega : i ≤ ((degree : ℕ) : ℤ))
  · have hmap : (t.reverse.map (fun i => qdiv i (degree : ℤ))).map QF.valD
        = t.reverse.map (fun i : ℤ => (i : ℚ) / ((degree : ℤ) : ℚ)) := by
      rw [List.map_map]
      apply List.map_congr_left
      intro i hi
      rw [Function.comp_apply, qdiv_eq_div i _ hne]
      rfl
    rw [hmap, sum_map_div_cast, List.sum_reverse, div_le_one hpos]
    exact_mod_cast hsum

/-- Witness for C10 at the concrete input dim 2, degree 2. -/
theorem lagrange_points_in_simplex_witness :
    (((2 : ℕ) = 1 ∨ (2 : ℕ) = 2) ∧ 1 ≤ (2 : ℕ)) ∧
      ∀ node ∈ lagrange_points 2 ((2 : ℕ) : ℤ),
        (∀ c ∈ node, QF.inUnit c) ∧ (node.map QF.valD).sum ≤ 1 :=
  ⟨⟨Or.inr rfl, by omega⟩, lagrange_points_in_simplex 2 2 (Or.inr rfl) (by omega)⟩

lemma mem_basisPairs {dim degree : ℕ} {ij : ℕ × ℕ}
    (h : ij ∈ basisPairs dim degree) : ij.1 ≤ degree ∧ ij.2 ≤ (dim - 1) * ij.1 := by
  obtain ⟨i, hi, hm⟩ := List.mem_flatMap.mp h
  obtain ⟨j, hj, rfl⟩ := List.mem_map.mp hm
  have h1 := List.mem_range.mp hi
  have h2 := List.mem_range.mp hj
  have h3 : j ≤ (dim - 1) * i := by omega
  exact ⟨by omega, h3⟩

lemma gradEntry_dx (i j : ℕ) (p : List ℚ) (hj : j ≤ i) :
    gradEntry (i, j) 0 p = dpow (i - j) (p.headD 0) * (p.getLastD 0) ^ j := by
  rw [gradEntry, column, dpow]
  simp only [if_true, Nat.cast_zero, mul_zero, add_zero, mul_one, sub_zero, Nat.cast_ofNat]
  have h1 : ((i : ℤ) - (j : ℤ) - 1).toNat = i - j - 1 := by omega
  have h2 : (((j : ℕ) : ℤ)).toNat = j := by omega
  have h3 : (((i : ℤ) - (j : ℤ) : ℤ) : ℚ) = ((i - j : ℕ) : ℚ) := by
    push_cast [hj]
    ring
  rw [h1, h2, h3]
  ring

lemma gradEntry_dy (i j : ℕ) (p : List ℚ) (hj : j ≤ i) :
    gradEntry (i, j) 1 p = (p.headD 0) ^ (i - j) * dpow j (p.getLastD 0) := by
  rw [gradEntry, column, dpow]
  simp only [if_true, Nat.cast_one, sub_self, mul_zero, zero_add, mul_one]
  have h1 : ((i : ℤ) - (j : ℤ) - 0).toNat = i - j := by omega
  have h2 : ((j : ℤ) - 1).toNat = j - 1 := by omega
  rw [h1, h2]
  push_cast
  ring

/-- Claim C2: for every cell (dim 1 or 2), every degree and every point
list, the gradient-mode Vandermonde array equals, entry for entry, the
analytic gradient of the monomial basis computed by the power rule (with
the derivative of `x^0` equal to 0, and exponents that would become
negative clamped with a vanishing coefficient, never an error): slice
`[:, :, 0]` is the partial derivative with respect to `x` and, for
dim 2, slice `[:, :, 1]` the partial with respect to `y`. -/
theorem vandermonde_matrix_grad_analytic (dim degree : ℕ) (pts : List (List ℚ))
    (hdim : dim = 1 ∨ dim = 2) :
    vandermonde_matrix_grad dim degree pts = analyticVandGrad dim degree pts := by
  rw [vandermonde_matrix_grad, analyticVandGrad]
  apply List.map_congr_left
  intro p _
  apply List.map_congr_left
  intro ij hij
  obtain ⟨hi, hj⟩ := mem_basisPairs hij
  obtain ⟨i, j⟩ := ij
  rcases hdim with rfl | rfl
  · have hj0 : j = 0 := by omega
    subst hj0
    show [gradEntry (i, 0) 0 p] = analyticGradRow 1 (i, 0) p
    rw [analyticGradRow, if_pos rfl, gradEntry_dx i 0 p (Nat.zero_le i)]
    simp [Nat.sub_zero]
  · have hji : j ≤ i := by omega
    show [gradEntry (i, j) 0 p, gradEntry (i, j) 1 p] = analyticGradRow 2 (i, j) p
    rw [analyticGradRow, if_neg (by omega : ¬ (2 : ℕ) = 1),
      gradEntry_dx i j p hji, gradEntry_dy i j p hji]

/-- Witness for C2 at the concrete input dim 1, degree 2, point 1/2:
the basis is `{1, x, x²}` and the tabulated gradient column is
`[0, 1, 2·(1/2)] = [0, 1, 1]`. -/
theorem vandermonde_matrix_grad_analytic_witness :
    ((1 : ℕ) = 1 ∨ (1 : ℕ) = 2) ∧
      vandermonde_matrix_grad 1 2 [[1/2]] = analyticVandGrad 1 2 [[1/2]] :=
  ⟨Or.inl rfl, vandermonde_matrix_grad_analytic 1 2 [[1/2]] (Or.inl rfl)⟩

lemma npInv_mul {n : ℕ} (A : Matrix (Fin n) (Fin n) ℚ) (h : A.det ≠ 0) :
    A * npInv n A = 1 ∧ npInv n A * A = 1 := by
  constructor
  · rw [npInv, Matrix.mul_smul, Matrix.mul_adjugate, smul_smul, inv_mul_cancel₀ h, one_smul]
  · rw [npInv, Matrix.smul_mul, Matrix.adjugate_mul, smul_smul, inv_mul_cancel₀ h, one_smul]

lemma basis_coefs_ok_elim {dim degree : ℕ} {nodes : List (List ℚ)} {B : List (List ℚ)}
    (h : basis_coefs dim degree nodes = Except.ok B) :
    (elemVand dim degree nodes).det ≠ 0 ∧
      B = matToList (numBasis dim degree)
            (npInv (numBasis dim degree) (elemVand dim degree nodes)) := by
  rw [basis_coefs] at h
  by_cases hdet : (elemVand dim degree nodes).det = 0
  · rw [if_pos hdet] at h
    cases h
  · rw [if_neg hdet] at h
    exact ⟨hdet, (Except.ok.inj h).symm⟩

lemma matToList_getD {n : ℕ} (A : Matrix (Fin n) (Fin n) ℚ) {i j : ℕ}
    (hi : i < n) (hj : j < n) :
    ((matToList n A).getD i []).getD j 0 = A ⟨i, hi⟩ ⟨j, hj⟩ := by
  have hrow : (matToList n A).getD i [] = (List.finRange n).map (fun v => A ⟨i, hi⟩ v) := by
    have hlen1 : i < ((List.finRange n).map
        (fun r => (List.finRange n).map (fun v => A r v))).length := by
      simpa using hi
    rw [matToList, List.getD_eq_getElem _ _ hlen1, List.getElem_map]
    apply List.map_congr_left
    intro v _
    congr 1
    apply Fin.ext
    simp
  rw [hrow]
  have hlen2 : j < ((List.finRange n).map (fun v => A ⟨i, hi⟩ v)).length := by
    simpa using hj
  rw [List.getD_eq_getElem _ _ hlen2, List.getElem_map]
  congr 1
  apply Fin.ext
  simp

lemma sum_range_list (N : ℕ) (f : ℕ → ℚ) :
    ((List.range N).map f).sum = ∑ b : Fin N, f b.val := by
  rw [sum_map_range]
  exact (Fin.sum_univ_eq_sum_range f N).symm

/-- Claim C1: for a scalar element on a cell of dimension 1 or 2 with
degree at least 1, whose square Vandermonde matrix at its own nodes is
invertible, tabulating at the element's nodes yields exactly the
identity matrix of size `node_count` (each Lagrange basis function is 1
at its own node and 0 at every other node).  In exact rational
arithmetic the identity is exact, which is stronger than the claimed
1e-10 tolerance. -/
theorem tabulate_nodes_identity (dim degree : ℕ) (nodes T : List (List ℚ))
    (hdim : dim = 1 ∨ dim = 2) (hdeg : 1 ≤ degree)
    (hn : nodes.length = numBasis dim degree)
    (hT : tabulate dim degree nodes nodes = Except.ok T) :
    T = (List.range nodes.length).map (fun p =>
      (List.range (numBasis dim degree)).map (fun n => if p = n then (1 : ℚ) else 0)) := by
  rcases hok : basis_coefs dim degree nodes with e | B
  · rw [tabulate, hok] at hT
    cases hT
  · rw [tabulate, hok] at hT
    simp only [Except.map] at hT
    obtain ⟨hdet, hBform⟩ := basis_coefs_ok_elim hok
    have hM1 : elemVand dim degree nodes
        * npInv (numBasis dim degree) (elemVand dim degree nodes) = 1 :=
      (npInv_mul _ hdet).1
    have hTeq : T = nodes.map (fun p =>
        (List.range (numBasis dim degree)).map (fun n =>
          ((List.range (numBasis dim degree)).map (fun b =>
            vandEntry dim degree p b * (B.getD b []).getD n 0)).sum)) :=
      (Except.ok.inj hT).symm
    subst hTeq
    apply List.ext_getElem
    · simp [hn]
    · intro p hp1 hp2
      rw [List.length_map] at hp1
      have hpN : p < numBasis dim degree := by omega
      simp only [List.getElem_map, List.getElem_range]
      apply List.ext_getElem
      · simp
      · intro n hn1 hn2
        rw [List.length_map, List.length_range] at hn1
        simp only [List.getElem_map, List.getElem_range]
        rw [sum_range_list]
        calc (∑ b : Fin (numBasis dim degree),
                vandEntry dim degree nodes[p] b.val * (B.getD b.val []).getD n 0)
            = ∑ b : Fin (numBasis dim degree),
                elemVand dim degree nodes ⟨p, hpN⟩ b
                  * npInv (numBasis dim degree) (elemVand dim degree nodes) b ⟨n, hn1⟩ := by
              apply Finset.sum_congr rfl
              intro b _
              rw [hBform, matToList_getD _ b.isLt hn1]
              congr 1
              · rw [elemVand, Matrix.of_apply]
                congr 1
                exact (List.getD_eq_getElem nodes [] hp1).symm
          _ = (elemVand dim degree nodes
                * npInv (numBasis dim degree) (elemVand dim degree nodes)) ⟨p, hpN⟩ ⟨n, hn1⟩ :=
              (Matrix.mul_apply).symm
          _ = (1 : Matrix (Fin (numBasis dim degree)) (Fin (numBasis dim degree)) ℚ)
                ⟨p, hpN⟩ ⟨n, hn1⟩ := by rw [hM1]
          _ = if p = n then (1 : ℚ) else 0 := by
              rw [Matrix.one_apply]
              simp [Fin.mk.injEq]

lemma mul_apply_list {n : ℕ} (A B : Matrix (Fin n) (Fin n) ℚ) (i j : Fin n) :
    (A * B) i j = ((List.finRange n).map (fun b => A i b * B b j)).sum := by
  rw [Matrix.mul_apply, ← List.sum_ofFn, List.ofFn_eq_map]

lemma finRange_interval1 :
    List.finRange (numBasis 1 1) = [⟨0, by decide⟩, ⟨1, by decide⟩] := rfl

lemma basisPairs_interval1 : basisPairs 1 1 = [(0, 0), (1, 0)] := rfl

lemma interval1_right_inv :
    elemVand 1 1 [[0], [1]] * listToMat (numBasis 1 1) [[1, 0], [-1, 1]] = 1 := by
  ext i j
  rw [mul_apply_list, finRange_interval1]
  fin_cases i <;> fin_cases j <;>
    norm_num [elemVand, vandEntry, column, basisPairs_interval1, listToMat,
      Matrix.of_apply, Matrix.one_apply, Fin.mk.injEq]

lemma interval1_matToList :
    matToList (numBasis 1 1) (listToMat (numBasis 1 1) [[1, 0], [-1, 1]])
      = [[1, 0], [-1, 1]] := by
  unfold matToList
  rw [finRange_interval1]
  simp [listToMat, Matrix.of_apply]

lemma interval1_coefs : basis_coefs 1 1 [[0], [1]] = Except.ok [[1, 0], [-1, 1]] := by
  have h := basis_coefs_ok_of_right_inv 1 1 [[0], [1]]
    (listToMat (numBasis 1 1) [[1, 0], [-1, 1]]) interval1_right_inv
  rw [h, interval1_matToList]

lemma range_interval1 : List.range (numBasis 1 1) = [0, 1] := rfl

lemma interval1_tab_nodes :
    tabulate 1 1 [[0], [1]] [[0], [1]] = Except.ok [[1, 0], [0, 1]] := by
  rw [tabulate, interval1_coefs]
  simp only [Except.map]
  congr 1
  rw [range_interval1]
  norm_num [vandEntry, column, basisPairs_interval1]

/-- Witness for C1: the degree-1 element on the reference interval with
nodes 0 and 1; tabulation at the nodes is exactly the 2×2 identity. -/
theorem tabulate_nodes_identity_witness :
    (((1 : ℕ) = 1 ∨ (1 : ℕ) = 2) ∧ 1 ≤ 1 ∧
      ([[0], [1]] : List (List ℚ)).length = numBasis 1 1 ∧
      tabulate 1 1 [[0], [1]] [[0], [1]] = Except.ok [[1, 0], [0, 1]]) ∧
    ([[1, 0], [0, 1]] : List (List ℚ)) =
      (List.range ([[0], [1]] : List (List ℚ)).length).map (fun p =>
        (List.range (numBasis 1 1)).map (fun n => if p = n then (1 : ℚ) else 0)) :=
  ⟨⟨Or.inl rfl, le_refl 1, rfl, interval1_tab_nodes⟩,
    tabulate_nodes_identity 1 1 [[0], [1]] [[1, 0], [0, 1]]
      (Or.inl rfl) (le_refl 1) rfl interval1_tab_nodes⟩

lemma dot_lists {N : ℕ} (g : ℕ → ℚ) (v : List ℚ) (hv : v.length = N) :
    ((((List.range N).map g).zip v).map (fun ab => ab.1 * ab.2)).sum
      = ∑ n : Fin N, g n.val * v.getD n.val 0 := by
  have h := sum_range_list N (fun n => g n * v.getD n 0)
  rw [← h]
  congr 1
  apply List.ext_getElem
  · simp [hv]
  · intro t h1 h2
    simp only [List.getElem_map, List.getElem_zip, List.getElem_range]
    rw [List.getD_eq_getElem v 0 (by rw [List.length_map, List.length_range] at h2; omega)]

lemma vecMul_mulVec_cancel {n : ℕ} (w v : Fin n → ℚ) (M E : Matrix (Fin n) (Fin n) ℚ)
    (h : M * E = 1) :
    (∑ k : Fin n, (∑ b : Fin n, w b * M b k) * (∑ u : Fin n, E k u * v u))
      = ∑ b : Fin n, w b * v b := by
  have h1 : ∀ k, (∑ b : Fin n, w b * M b k) = Matrix.vecMul w M k := by
    intro k
    rw [Matrix.vecMul, Matrix.dotProduct]
  have h2 : ∀ k, (∑ u : Fin n, E k u * v u) = Matrix.mulVec E v k := by
    intro k
    rw [Matrix.mulVec, Matrix.dotProduct]
  calc (∑ k : Fin n, (∑ b : Fin n, w b * M b k) * (∑ u : Fin n, E k u * v u))
      = ∑ k, Matrix.vecMul w M k * Matrix.mulVec E v k := by
        apply Finset.sum_congr rfl
        intro k _
        rw [h1, h2]
    _ = Matrix.dotProduct (Matrix.vecMul w M) (Matrix.mulVec E v) := rfl
    _ = Matrix.dotProduct w (Matrix.mulVec M (Matrix.mulVec E v)) :=
        (Matrix.dotProduct_mulVec _ _ _).symm
    _ = Matrix.dotProduct w (Matrix.mulVec (M * E) v) := by rw [Matrix.mulVec_mulVec]
    _ = Matrix.dotProduct w v := by rw [h, Matrix.one_mulVec]
    _ = ∑ b : Fin n, w b * v b := rfl

/-- Claim C4: for every scalar element (any node set of the right size
whose Vandermonde matrix inverts, so that `tabulate` succeeds), every
polynomial `f` of total degree at most the element's degree (written
via its coefficient list over the monomial basis), and every point
list, `tabulate(points) @ interpolate(f)` recovers `f` exactly at the
points.  In exact arithmetic the recovery is exact, which is stronger
than "up to numerical precision". -/
theorem interpolate_exactness (dim degree : ℕ) (nodes pts : List (List ℚ))
    (c : List ℚ) (T : List (List ℚ))
    (hn : nodes.length = numBasis dim degree)
    (hT : tabulate dim degree nodes pts = Except.ok T) :
    matVecL T (interpolate nodes (fpoly dim degree c)) = pts.map (fpoly dim degree c) := by
  rcases hok : basis_coefs dim degree nodes with e | B
  · rw [tabulate, hok] at hT
    cases hT
  · rw [tabulate, hok] at hT
    simp only [Except.map] at hT
    obtain ⟨hdet, hBform⟩ := basis_coefs_ok_elim hok
    have hME : npInv (numBasis dim degree) (elemVand dim degree nodes)
        * elemVand dim degree nodes = 1 := (npInv_mul _ hdet).2
    have hTeq : T = pts.map (fun p => (List.range (numBasis dim degree)).map (fun n =>
        ((List.range (numBasis dim degree)).map (fun b =>
          vandEntry dim degree p b * (B.getD b []).getD n 0)).sum)) :=
      (Except.ok.inj hT).symm
    subst hTeq
    rw [matVecL, interpolate, List.map_map]
    apply List.map_congr_left
    intro p _
    rw [Function.comp_apply]
    have hvlen : (nodes.map (fpoly dim degree c)).length = numBasis dim degree := by
      simp [hn]
    rw [dot_lists _ _ hvlen]
    have hrow : ∀ n : Fin (numBasis dim degree),
        ((List.range (numBasis dim degree)).map (fun b =>
          vandEntry dim degree p b * (B.getD b []).getD n.val 0)).sum
          = ∑ b : Fin (numBasis dim degree), vandEntry dim degree p b.val
              * npInv (numBasis dim degree) (elemVand dim degree nodes) b n := by
      intro n
      rw [sum_range_list]
      apply Finset.sum_congr rfl
      intro b _
      rw [hBform, matToList_getD _ b.isLt n.isLt]
    have hval : ∀ n : Fin (numBasis dim degree),
        (nodes.map (fpoly dim degree c)).getD n.val 0
          = ∑ u : Fin (numBasis dim degree),
              elemVand dim degree nodes n u * c.getD u.val 0 := by
      intro n
      have hnl : n.val < nodes.length := by
        rw [hn]
        exact n.isLt
      rw [List.getD_eq_getElem _ 0 (by simpa [hn] using n.isLt), List.getElem_map]
      rw [fpoly, sum_range_list]
      apply Finset.sum_congr rfl
      intro u _
      rw [elemVand, Matrix.of_apply]
      rw [← List.getD_eq_getElem nodes [] hnl]
      exact mul_comm _ _
    calc (∑ n : Fin (numBasis dim degree),
            ((List.range (numBasis dim degree)).map (fun b =>
              vandEntry dim degree p b * (B.getD b []).getD n.val 0)).sum
            * (nodes.map (fpoly dim degree c)).getD n.val 0)
        = ∑ n : Fin (numBasis dim degree),
            (∑ b : Fin (numBasis dim degree), vandEntry dim degree p b.val
              * npInv (numBasis dim degree) (elemVand dim degree nodes) b n)
            * (∑ u : Fin (numBasis dim degree),
                elemVand dim degree nodes n u * c.getD u.val 0) := by
          apply Finset.sum_congr rfl
          intro n _
          rw [hrow n, hval n]
      _ = ∑ b : Fin (numBasis dim degree),
            vandEntry dim degree p b.val * c.getD b.val 0 :=
          vecMul_mulVec_cancel _ _ _ _ hME
      _ = fpoly dim degree c p := by
          rw [fpoly, sum_range_list]
          apply Finset.sum_congr rfl
          intro b _
          exact mul_comm _ _

lemma interval1_tab_third :
    tabulate 1 1 [[0], [1]] [[(1 : ℚ)/3]] = Except.ok [[2/3, 1/3]] := by
  rw [tabulate, interval1_coefs]
  simp only [Except.map]
  congr 1
  rw [range_interval1]
  norm_num [vandEntry, column, basisPairs_interval1]

/-- Witness for C4: the degree-1 interval element recovers the degree-1
polynomial `f(x) = 1 + 2x` exactly at the point 1/3. -/
theorem interpolate_exactness_witness :
    (([[0], [1]] : List (List ℚ)).length = numBasis 1 1 ∧
      tabulate 1 1 [[0], [1]] [[(1 : ℚ)/3]] = Except.ok [[2/3, 1/3]]) ∧
    matVecL [[2/3, 1/3]] (interpolate [[0], [1]] (fpoly 1 1 [1, 2]))
      = [[(1 : ℚ)/3]].map (fpoly 1 1 [1, 2]) :=
  ⟨⟨rfl, interval1_tab_third⟩,
    interpolate_exactness 1 1 [[0], [1]] [[(1 : ℚ)/3]] [1, 2] [[2/3, 1/3]]
      rfl interval1_tab_third⟩

/-- Claim C5 as amended: element construction fails — with numpy's
`LinAlgError` raised by `np.linalg.inv`, the only error the code can
produce (no `SingularBasis` class exists anywhere in the repository) —
exactly when the Vandermonde matrix at the nodes is exactly singular
(zero determinant).  There is no conditioning check, so node sets whose
matrix is numerically singular in float64 but exactly invertible
construct without any error. -/
theorem basis_coefs_error_iff (dim degree : ℕ) (nodes : List (List ℚ)) :
    basis_coefs dim degree nodes = Except.error NpLinAlgError.singularMatrix
      ↔ (elemVand dim degree nodes).det = 0 := by
  rw [basis_coefs]
  by_cases h : (elemVand dim degree nodes).det = 0
  · simp [h]
  · simp [h]

lemma intervalSing_right_inv :
    elemVand 1 1 [[0], [1 / 10 ^ 20]]
      * listToMat (numBasis 1 1) [[1, 0], [-(10 ^ 20), 10 ^ 20]] = 1 := by
  ext i j
  rw [mul_apply_list, finRange_interval1]
  fin_cases i <;> fin_cases j <;>
    norm_num [elemVand, vandEntry, column, basisPairs_interval1, listToMat,
      Matrix.of_apply, Matrix.one_apply, Fin.mk.injEq]

/-- Counterexample to claim C5: the node set `{0, 10⁻²⁰}` on the
interval at degree 1 is numerically singular in float64 (its condition
number is about 2·10²⁰, far above `1/eps = 2⁵²`), yet construction does
not fail at all — `np.linalg.inv` silently returns the huge exact
inverse, because the code performs no conditioning check and raises no
`SingularBasis` error. -/
theorem singular_basis_counterexample :
    numericallySingularF64 (numBasis 1 1) (elemVand 1 1 [[0], [1 / 10 ^ 20]]) ∧
      basis_coefs 1 1 [[0], [1 / 10 ^ 20]]
        = Except.ok [[1, 0], [-(10 ^ 20), 10 ^ 20]] := by
  constructor
  · right
    rw [condInf, npInv_eq_of_right_inv intervalSing_right_inv]
    rw [rowSumNorm, rowSumNorm, finRange_interval1]
    norm_num [elemVand, vandEntry, column, basisPairs_interval1, listToMat,
      Matrix.of_apply]
    rw [abs_of_nonneg (by norm_num : (0 : ℚ) ≤ 1 / 100000000000000000000)]
    norm_num [max_def]
  · have h := basis_coefs_ok_of_right_inv 1 1 [[0], [1 / 10 ^ 20]]
      (listToMat (numBasis 1 1) [[1, 0], [-(10 ^ 20), 10 ^ 20]]) intervalSing_right_inv
    rw [h]
    congr 1

lemma finRange_triangle1 :
    List.finRange (numBasis 2 1) = [⟨0, by decide⟩, ⟨1, by decide⟩, ⟨2, by decide⟩] := rfl

lemma basisPairs_triangle1 : basisPairs 2 1 = [(0, 0), (1, 0), (1, 1)] := rfl

lemma range_triangle1 : List.range (numBasis 2 1) = [0, 1, 2] := rfl

lemma range_two : List.range 2 = [0, 1] := rfl

lemma triangle1_right_inv :
    elemVand 2 1 [[0, 0], [1, 0], [0, 1]]
      * listToMat (numBasis 2 1) [[1, 0, 0], [-1, 1, 0], [-1, 0, 1]] = 1 := by
  ext i j
  rw [mul_apply_list, finRange_triangle1]
  fin_cases i <;> fin_cases j <;>
    norm_num [elemVand, vandEntry, column, basisPairs_triangle1, listToMat,
      Matrix.of_apply, Matrix.one_apply, Fin.ext_iff]

lemma triangle1_coefs :
    basis_coefs 2 1 [[0, 0], [1, 0], [0, 1]]
      = Except.ok [[1, 0, 0], [-1, 1, 0], [-1, 0, 1]] := by
  have h := basis_coefs_ok_of_right_inv 2 1 [[0, 0], [1, 0], [0, 1]]
    (listToMat (numBasis 2 1) [[1, 0, 0], [-1, 1, 0], [-1, 0, 1]]) triangle1_right_inv
  rw [h]
  congr 1

lemma triangle1_tab_centroid :
    tabulate 2 1 [[0, 0], [1, 0], [0, 1]] [[(1 : ℚ)/3, 1/3]]
      = Except.ok [[1/3, 1/3, 1/3]] := by
  rw [tabulate, triangle1_coefs]
  simp only [Except.map]
  congr 1
  rw [range_triangle1]
  norm_num [vandEntry, column, basisPairs_triangle1]

lemma triangle1_tabGrad_centroid :
    tabulateGrad 2 1 [[0, 0], [1, 0], [0, 1]] [[(1 : ℚ)/3, 1/3]]
      = Except.ok [[[-1, -1], [1, 0], [0, 1]]] := by
  rw [tabulateGrad, triangle1_coefs]
  simp only [Except.map]
  congr 1
  rw [range_triangle1, range_two]
  norm_num [gradEntry, column, basisPairs_triangle1]

/-- Claim C9 as amended: for a vector element over a 2-dimensional cell
(the hard-coded component count 2 of the implementation then equals the
cell dimension), value-mode tabulation satisfies: entry `(p, k, comp)`
equals the scalar element's basis function `k // 2` at point `p` when
`comp = k % 2`, and is exactly 0 otherwise (component index cycling
fastest). -/
theorem vector_tabulate_value_structure (degree : ℕ) (nodes pts : List (List ℚ))
    (phi : List (List ℚ))
    (hphi : tabulate 2 degree nodes pts = Except.ok phi) :
    VectorFiniteElement.tabulate_value 2 degree nodes pts
      = Except.ok (phi.map (fun row =>
          (List.range (row.length * 2)).map (fun k =>
            [if k % 2 = 0 then row.getD (k / 2) 0 else 0,
             if k % 2 = 1 then row.getD (k / 2) 0 else 0]))) := by
  rw [VectorFiniteElement.tabulate_value, hphi]
  simp only [Except.map]
  congr 1
  rw [vlift_value]
  apply List.map_congr_left
  intro row _
  apply List.map_congr_left
  intro k _
  rcases Nat.mod_two_eq_zero_or_one k with h | h
  · have h1 : (k + 1) % 2 = 1 := by omega
    rw [h, h1]
    norm_num
  · have h1 : (k + 1) % 2 = 0 := by omega
    rw [h, h1]
    norm_num

/-- Witness for the amended C9: the degree-1 vector element on the
triangle, tabulated at the centroid (the scalar tabulation there is
`[1/3, 1/3, 1/3]`). -/
theorem vector_tabulate_value_structure_witness :
    tabulate 2 1 [[0, 0], [1, 0], [0, 1]] [[(1 : ℚ)/3, 1/3]]
        = Except.ok [[1/3, 1/3, 1/3]] ∧
    VectorFiniteElement.tabulate_value 2 1 [[0, 0], [1, 0], [0, 1]] [[(1 : ℚ)/3, 1/3]]
      = Except.ok (([[1/3, 1/3, 1/3]] : List (List ℚ)).map (fun row =>
          (List.range (row.length * 2)).map (fun k =>
            [if k % 2 = 0 then row.getD (k / 2) 0 else 0,
             if k % 2 = 1 then row.getD (k / 2) 0 else 0]))) :=
  ⟨triangle1_tab_centroid,
    vector_tabulate_value_structure 1 [[0, 0], [1, 0], [0, 1]] [[(1 : ℚ)/3, 1/3]]
      [[1/3, 1/3, 1/3]] triangle1_tab_centroid⟩

lemma interval1_tab_half :
    tabulate 1 1 [[0], [1]] [[(1 : ℚ)/2]] = Except.ok [[1/2, 1/2]] := by
  rw [tabulate, interval1_coefs]
  simp only [Except.map]
  congr 1
  rw [range_interval1]
  norm_num [vandEntry, column, basisPairs_interval1]

/-- Counterexample to claim C9: for a vector element over the interval
(`dim = 1`), the claim demands `tabulate(points)[:, k, comp] = 0` for
every `comp ≠ k % dim = 0` and the value `φ_{k // 1}` in component 0;
but the implementation hard-codes two components and the parity of `k`,
so for `k = 1` the scalar value `φ_0(1/2) = 1/2` lands in component 1
(which should be zero under the claim) while component `0 = 1 % 1`
holds 0 instead of `φ_1(1/2)`. -/
theorem vector_tabulate_value_counterexample :
    VectorFiniteElement.tabulate_value 1 1 [[0], [1]] [[(1 : ℚ)/2]]
      = Except.ok [[[1/2, 0], [0, 1/2]]] ∧ (1 : ℕ) % 1 = 0 ∧ ((1 : ℚ)/2 ≠ 0) := by
  refine ⟨?_, rfl, by norm_num⟩
  rw [VectorFiniteElement.tabulate_value, interval1_tab_half]
  simp only [Except.map]
  congr 1
  rw [vlift_value]
  norm_num [range_two]

/-- Claim C8 as amended: for a vector element over a 2-dimensional cell,
gradient-mode tabulation returns an array of shape
(points, 2·num_basis, 2, 2) in which the third axis spans the
**gradient direction** and the fourth (hard-coded size-2) axis the
**vector component** — the transpose of the axis order asserted in the
original claim; for basis index `k` only the component **column**
`k % 2` is non-zero, populated with the scalar basis gradient, and all
cross-component columns are exactly zero. -/
theorem vector_tabulate_grad_structure (degree : ℕ) (nodes pts : List (List ℚ))
    (phig : List (List (List ℚ)))
    (hphi : tabulateGrad 2 degree nodes pts = Except.ok phig) :
    VectorFiniteElement.tabulate_grad 2 degree nodes pts
      = Except.ok (phig.map (fun row =>
          (List.range (row.length * 2)).map (fun k =>
            (row.getD (k / 2) []).map (fun g =>
              [if k % 2 = 0 then g else 0, if k % 2 = 1 then g else 0])))) ∧
    ∀ L, VectorFiniteElement.tabulate_grad 2 degree nodes pts = Except.ok L →
      L.length = pts.length ∧
      ∀ prow ∈ L, prow.length = numBasis 2 degree * 2 ∧
        ∀ krow ∈ prow, krow.length = 2 ∧ ∀ grow ∈ krow, grow.length = 2 := by
  have hmain : VectorFiniteElement.tabulate_grad 2 degree nodes pts
      = Except.ok (phig.map (fun row =>
          (List.range (row.length * 2)).map (fun k =>
            (row.getD (k / 2) []).map (fun g =>
              [if k % 2 = 0 then g else 0, if k % 2 = 1 then g else 0])))) := by
    rw [VectorFiniteElement.tabulate_grad, hphi]
    simp only [Except.map]
    congr 1
    rw [vlift_grad]
    apply List.map_congr_left
    intro row _
    apply List.map_congr_left
    intro k _
    apply List.map_congr_left
    intro g _
    rcases Nat.mod_two_eq_zero_or_one k with h | h
    · have h1 : (k + 1) % 2 = 1 := by omega
      rw [h, h1]
      norm_num
    · have h1 : (k + 1) % 2 = 0 := by omega
      rw [h, h1]
      norm_num
  refine ⟨hmain, ?_⟩
  intro L hL
  have hLeq : L = phig.map (fun row =>
      (List.range (row.length * 2)).map (fun k =>
        (row.getD (k / 2) []).map (fun g =>
          [if k % 2 = 0 then g else 0, if k % 2 = 1 then g else 0]))) := by
    rw [hmain] at hL
    exact (Except.ok.inj hL).symm
  subst hLeq
  rcases hok : basis_coefs 2 degree nodes with e | B
  · rw [tabulateGrad, hok] at hphi
    cases hphi
  · rw [tabulateGrad, hok] at hphi
    simp only [Except.map] at hphi
    have hform : phig = pts.map (fun p =>
        (List.range (numBasis 2 degree)).map (fun l =>
          (List.range 2).map (fun k =>
            ((List.range (numBasis 2 degree)).map (fun j =>
              gradEntry ((basisPairs 2 degree).getD j (0, 0)) k p
                * (B.getD j []).getD l 0)).sum))) := (Except.ok.inj hphi).symm
    have hrowlen : ∀ row ∈ phig, row.length = numBasis 2 degree := by
      intro row hrow
      rw [hform] at hrow
      obtain ⟨p, hp, rfl⟩ := List.mem_map.mp hrow
      simp
    have hgvlen : ∀ row ∈ phig, ∀ gv ∈ row, gv.length = 2 := by
      intro row hrow gv hgv
      rw [hform] at hrow
      obtain ⟨p, hp, rfl⟩ := List.mem_map.mp hrow
      obtain ⟨l, hl, rfl⟩ := List.mem_map.mp hgv
      simp
    constructor
    · rw [List.length_map, hform, List.length_map]
    · intro prow hprow
      obtain ⟨row, hrow, rfl⟩ := List.mem_map.mp hprow
      constructor
      · rw [List.length_map, List.length_range, hrowlen row hrow]
      · intro krow hkrow
        obtain ⟨k, hk, rfl⟩ := List.mem_map.mp hkrow
        have hklt := List.mem_range.mp hk
        have hk2 : k / 2 < row.length := by omega
        constructor
        · rw [List.length_map]
          exact hgvlen row hrow _ (by
            rw [List.getD_eq_getElem row [] hk2]
            exact List.getElem_mem hk2)
        · intro grow hgrow
          obtain ⟨g, hg, rfl⟩ := List.mem_map.mp hgrow
          rfl

/-- Witness for the amended C8: the degree-1 vector element on the
triangle at the centroid; the scalar gradient tabulation there is
`[[∇φ₀, ∇φ₁, ∇φ₂]] = [[[-1,-1],[1,0],[0,1]]]`. -/
theorem vector_tabulate_grad_structure_witness :
    tabulateGrad 2 1 [[0, 0], [1, 0], [0, 1]] [[(1 : ℚ)/3, 1/3]]
        = Except.ok [[[-1, -1], [1, 0], [0, 1]]] ∧
    (VectorFiniteElement.tabulate_grad 2 1 [[0, 0], [1, 0], [0, 1]] [[(1 : ℚ)/3, 1/3]]
      = Except.ok (([[[-1, -1], [1, 0], [0, 1]]] : List (List (List ℚ))).map (fun row =>
          (List.range (row.length * 2)).map (fun k =>
            (row.getD (k / 2) []).map (fun g =>
              [if k % 2 = 0 then g else 0, if k % 2 = 1 then g else 0])))) ∧
    ∀ L, VectorFiniteElement.tabulate_grad 2 1 [[0, 0], [1, 0], [0, 1]] [[(1 : ℚ)/3, 1/3]]
        = Except.ok L →
      L.length = ([[(1 : ℚ)/3, 1/3]] : List (List ℚ)).length ∧
      ∀ prow ∈ L, prow.length = numBasis 2 1 * 2 ∧
        ∀ krow ∈ prow, krow.length = 2 ∧ ∀ grow ∈ krow, grow.length = 2) :=
  ⟨triangle1_tabGrad_centroid,
    vector_tabulate_grad_structure 1 [[0, 0], [1, 0], [0, 1]] [[(1 : ℚ)/3, 1/3]]
      [[[-1, -1], [1, 0], [0, 1]]] triangle1_tabGrad_centroid⟩

/-- Counterexample to claim C8: for the degree-1 vector element on the
triangle, the gradient tabulation at the centroid for vector basis
index `k = 0` (component `k % 2 = 0`) is the 2×2 array
`[[-1, 0], [-1, 0]]`; under the claim's axis order (outer axis =
component) the row of index 1 — a cross-component row — would have to
be exactly zero, yet its first entry is `∂φ₀/∂y = -1 ≠ 0` (the
implementation stores the gradient direction on the outer axis and the
component on the inner one). -/
theorem vector_tabulate_grad_counterexample :
    (((((VectorFiniteElement.tabulate_grad 2 1 [[0, 0], [1, 0], [0, 1]]
          [[(1 : ℚ)/3, 1/3]]).toOption.getD []).getD 0 []).getD 0 []).getD 1 []).getD 0 0
      = -1 ∧ ((-1 : ℚ) ≠ 0) := by
  constructor
  · rw [VectorFiniteElement.tabulate_grad, triangle1_tabGrad_centroid]
    simp only [Except.map, Except.toOption]
    rw [vlift_grad]
    norm_num [range_two]
  · norm_num
